import Mathlib

/-!
# Verification of the RaBbLE real-time transcription pipeline

Shallow embedding of the audio-distribution / chunk-assembly / deduplication /
word-pacing core of the repository, together with proofs of the specified
properties.

Conventions used throughout:
* Python byte strings are modelled as `List Nat` (one `Nat` per byte);
  signed 16-bit samples as `Int`.
* Pixel positions (Python floats driven by exact arithmetic on the inputs we
  consider) are modelled as `ℚ`.
* Text is modelled at the word level: a fragment is a `List String` of its
  whitespace-separated words, matching how the code itself immediately calls
  `str.split()` on every piece of text it manipulates.
* Clock readings (`pygame.time.get_ticks()`, Python ints) are `Int`.
-/

namespace Transcriber

/-!
## ChunkAssembler: `AbstractTranscriber.run` (src/transcriber.py)

The run loop keeps `audio_buffer : bytearray`; each outer iteration first
drains the incoming queue into the buffer, then, while the buffer holds at
least `interval_buffer_size` bytes, cuts `chunk_to_transcribe =
audio_buffer[:interval_buffer_size]` and retains
`audio_buffer = audio_buffer[interval_buffer_size - overlap_buffer_size:]`.
-/

/-- `interval_buffer_size = int(sample_rate * interval_seconds) * 2`
(transcriber.py, run).  `sample_rate` is an integer and `interval_seconds`
a (rational-valued) float; `int()` truncates toward zero, and the operands
are nonnegative, so `Rat.floor` agrees with it. -/
def intervalBufferSize (sampleRate : ℕ) (intervalSeconds : ℚ) : ℕ :=
  ((sampleRate : ℚ) * intervalSeconds).floor.toNat * 2

/-- `overlap_buffer_size = int(sample_rate * overlap_seconds) * 2`. -/
def overlapBufferSize (sampleRate : ℕ) (overlapSeconds : ℚ) : ℕ :=
  ((sampleRate : ℚ) * overlapSeconds).floor.toNat * 2

/-- One window extraction:
`chunk_to_transcribe = audio_buffer[:interval_buffer_size]` and
`audio_buffer = audio_buffer[interval_buffer_size - overlap_buffer_size:]`. -/
def cutWindow (i o : ℕ) (buf : List ℕ) : List ℕ × List ℕ :=
  (buf.take i, buf.drop (i - o))

/-- The inner catch-up loop of `run`: while the buffer holds at least
`i` bytes, cut the window `buf[:i]` and retain `buf[i - o:]`.  Returns the
list of windows cut, in order, and the final buffer.  (The `0 < i - o`
conjunct makes the function total; the Python loop only terminates under the
documented invariant `overlap_bytes < interval_bytes`, under which the guard
coincides with the code's `len(audio_buffer) >= interval_buffer_size`.) -/
def drainWindows (i o : ℕ) (buf : List ℕ) : List (List ℕ) × List ℕ :=
  if _h : 0 < i - o ∧ i ≤ buf.length then
    ((buf.take i) :: (drainWindows i o (buf.drop (i - o))).1,
      (drainWindows i o (buf.drop (i - o))).2)
  else ([], buf)
termination_by buf.length
decreasing_by
  all_goals simp only [List.length_drop]
  all_goals omega

theorem drainWindows_pos (i o : ℕ) (buf : List ℕ) (h : 0 < i - o ∧ i ≤ buf.length) :
    drainWindows i o buf =
      ((buf.take i) :: (drainWindows i o (buf.drop (i - o))).1,
        (drainWindows i o (buf.drop (i - o))).2) := by
  rw [drainWindows, dif_pos h]

theorem drainWindows_neg (i o : ℕ) (buf : List ℕ) (h : ¬(0 < i - o ∧ i ≤ buf.length)) :
    drainWindows i o buf = ([], buf) := by
  rw [drainWindows, dif_neg h]

/-- One queue-drain step: `while not empty: audio_buffer.extend(get_nowait())`
appends every pending chunk, in FIFO order, to the buffer. -/
def extendBuffer (buf : List ℕ) (incoming : List (List ℕ)) : List ℕ :=
  buf ++ incoming.flatten

/-- All windows cut over a whole run: each outer iteration receives a batch of
queued chunks, extends the buffer with them and drains every complete
window. -/
def assemblerRun (i o : ℕ) (buf : List ℕ) :
    List (List (List ℕ)) → List (List ℕ) × List ℕ
  | [] => ([], buf)
  | batch :: rest =>
    let p := drainWindows i o (extendBuffer buf batch)
    let q := assemblerRun i o p.2 rest
    (p.1 ++ q.1, q.2)

/-- Two consecutively cut windows agree on the overlap: the first `o` bytes
of the later window are the last `o` bytes of the earlier one. -/
def OverlapRel (i o : ℕ) (w w' : List ℕ) : Prop :=
  w'.take o = w.drop (i - o)

instance (i o : ℕ) : DecidableRel (OverlapRel i o) := fun w w' =>
  inferInstanceAs (Decidable (w'.take o = w.drop (i - o)))

/-- Structural facts about one execution of the inner drain loop: the cut
windows satisfy the overlap chain, every window is exactly `i` bytes, the
final buffer is shorter than `i`, a loop that cuts nothing leaves the buffer
untouched, and after the last cut the retained buffer starts with the last
window's trailing `o` bytes. -/
theorem drainWindows_spec (i o : ℕ) (ho : o < i) (buf : List ℕ) :
    List.Chain' (OverlapRel i o) (drainWindows i o buf).1
    ∧ (∀ w ∈ (drainWindows i o buf).1, w.length = i)
    ∧ (drainWindows i o buf).2.length < i
    ∧ ((drainWindows i o buf).1 = [] → (drainWindows i o buf).2 = buf)
    ∧ (∀ w, (drainWindows i o buf).1.getLast? = some w →
        (drainWindows i o buf).2.take o = w.drop (i - o)
        ∧ o ≤ (drainWindows i o buf).2.length) := by
  induction buf using drainWindows.induct i o with
  | case1 buf h ih =>
    obtain ⟨ihChain, ihLen, ihShort, ihNil, ihLast⟩ := ih
    rw [drainWindows_pos i o buf h]
    dsimp only
    have hkey : (buf.take i).drop (i - o) = (buf.drop (i - o)).take o := by
      rw [List.drop_take]
      congr 1
      omega
    refine ⟨?_, ?_, ihShort, ?_, ?_⟩
    · rw [List.chain'_cons']
      refine ⟨?_, ihChain⟩
      intro y hy
      rcases hrec : (drainWindows i o (buf.drop (i - o))).1 with _ | ⟨w, ws⟩
      · rw [hrec] at hy
        simp at hy
      · rw [hrec] at hy
        simp only [List.head?_cons, Option.mem_def, Option.some.injEq] at hy
        subst hy
        by_cases hg : 0 < i - o ∧ i ≤ (buf.drop (i - o)).length
        · have hrw := drainWindows_pos i o (buf.drop (i - o)) hg
          rw [hrw] at hrec
          have hw : w = (buf.drop (i - o)).take i :=
            ((List.cons.injEq _ _ _ _).mp hrec).1.symm
          subst hw
          show ((buf.drop (i - o)).take i).take o = (buf.take i).drop (i - o)
          rw [List.take_take, Nat.min_eq_left (Nat.le_of_lt ho), hkey]
        · rw [drainWindows_neg i o _ hg] at hrec
          simp at hrec
    · intro w hw
      rcases List.mem_cons.mp hw with h1 | h1
      · subst h1
        rw [List.length_take]
        omega
      · exact ihLen w h1
    · intro hcontra
      simp at hcontra
    · intro w hw
      rcases hrec : (drainWindows i o (buf.drop (i - o))).1 with _ | ⟨w', ws'⟩
      · rw [hrec] at hw
        simp only [List.getLast?_singleton, Option.some.injEq] at hw
        subst hw
        rw [ihNil hrec, hkey]
        refine ⟨rfl, ?_⟩
        simp only [List.length_drop]
        omega
      · rw [hrec, List.getLast?_cons_cons, ← hrec] at hw
        exact ihLast w hw
  | case2 buf h =>
    rw [drainWindows_neg i o buf h]
    dsimp only
    refine ⟨List.chain'_nil, by simp, ?_, fun _ => rfl, by simp⟩
    omega

theorem drainWindows_head (i o : ℕ) (buf : List ℕ) (h : 0 < i - o ∧ i ≤ buf.length) :
    (drainWindows i o buf).1.head? = some (buf.take i) := by
  rw [drainWindows_pos i o buf h]
  rfl

/-- Run-level invariant for the assembler: the whole window sequence cut over
a run forms an overlap chain; every window has exactly `i` bytes; the first
window cut starts with the first `o` bytes of the starting buffer; after the
last cut the buffer starts with that window's trailing `o` bytes; and a run
that cuts nothing only ever extends the buffer. -/
theorem assemblerRun_spec (i o : ℕ) (ho : o < i) (batches : List (List (List ℕ))) :
    ∀ buf : List ℕ,
    List.Chain' (OverlapRel i o) (assemblerRun i o buf batches).1
    ∧ (∀ w ∈ (assemblerRun i o buf batches).1, w.length = i)
    ∧ (o ≤ buf.length → ∀ w, (assemblerRun i o buf batches).1.head? = some w →
        w.take o = buf.take o)
    ∧ (∀ w, (assemblerRun i o buf batches).1.getLast? = some w →
        (assemblerRun i o buf batches).2.take o = w.drop (i - o)
        ∧ o ≤ (assemblerRun i o buf batches).2.length)
    ∧ ((assemblerRun i o buf batches).1 = [] →
        buf <+: (assemblerRun i o buf batches).2) := by
  induction batches with
  | nil =>
    intro buf
    refine ⟨List.chain'_nil, by simp [assemblerRun], by simp [assemblerRun], by simp [assemblerRun], ?_⟩
    intro _
    exact List.prefix_refl buf
  | cons batch rest ih =>
    intro buf
    have hbuf1 : buf.length ≤ (extendBuffer buf batch).length := by
      simp [extendBuffer]
    have htake1 : ∀ n ≤ buf.length, (extendBuffer buf batch).take n = buf.take n := by
      intro n hn
      exact List.take_append_of_le_length hn
    by_cases hg : 0 < i - o ∧ i ≤ (extendBuffer buf batch).length
    · -- at least one window is cut this iteration
      obtain ⟨dChain, dLen, dShort, dNil, dLast⟩ := drainWindows_spec i o ho (extendBuffer buf batch)
      obtain ⟨qChain, qLen, qHead, qLast, qNil⟩ := ih (drainWindows i o (extendBuffer buf batch)).2
      have hne : (drainWindows i o (extendBuffer buf batch)).1 ≠ [] := by
        rw [drainWindows_pos i o _ hg]
        simp
      have hrun : assemblerRun i o buf (batch :: rest) =
          ((drainWindows i o (extendBuffer buf batch)).1
            ++ (assemblerRun i o (drainWindows i o (extendBuffer buf batch)).2 rest).1,
           (assemblerRun i o (drainWindows i o (extendBuffer buf batch)).2 rest).2) := rfl
      rw [hrun]
      have hob : ∀ w, (drainWindows i o (extendBuffer buf batch)).1.getLast? = some w →
          o ≤ (drainWindows i o (extendBuffer buf batch)).2.length := by
        intro w hw
        exact (dLast w hw).2
      refine ⟨?_, ?_, ?_, ?_, ?_⟩
      · refine dChain.append qChain ?_
        intro x hx y hy
        have hx' := dLast x hx
        have hy' := qHead hx'.2 y hy
        show y.take o = x.drop (i - o)
        rw [hy', hx'.1]
      · intro w hw
        rcases List.mem_append.mp hw with h1 | h1
        · exact dLen w h1
        · exact qLen w h1
      · intro hb w hw
        have hhead := drainWindows_head i o (extendBuffer buf batch) hg
        rcases hdw : (drainWindows i o (extendBuffer buf batch)).1 with _ | ⟨w0, ws0⟩
        · exact absurd hdw hne
        · rw [hdw] at hw hhead
          simp only [List.cons_append, List.head?_cons, Option.some.injEq] at hw hhead
          subst hw
          rw [hhead, List.take_take, Nat.min_eq_left (Nat.le_of_lt ho), htake1 o hb]
      · intro w hw
        rcases hq : (assemblerRun i o (drainWindows i o (extendBuffer buf batch)).2 rest).1
          with _ | ⟨y0, ys0⟩
        · rw [hq, List.append_nil] at hw
          have hpre := qNil hq
          obtain ⟨t, ht⟩ := hpre
          have hd := dLast w hw
          constructor
          · rw [← ht, List.take_append_of_le_length hd.2, hd.1]
          · calc o ≤ (drainWindows i o (extendBuffer buf batch)).2.length := hd.2
              _ ≤ _ := by rw [← ht]; simp
        · rw [hq] at hw
          rw [List.getLast?_append_of_ne_nil _ (by simp)] at hw
          rw [← hq] at hw
          exact qLast w hw
      · intro hcontra
        rcases hdw : (drainWindows i o (extendBuffer buf batch)).1 with _ | _
        · exact absurd hdw hne
        · rw [hdw] at hcontra
          simp at hcontra
    · -- no window cut: the buffer is only extended
      have hdw := drainWindows_neg i o (extendBuffer buf batch) hg
      obtain ⟨qChain, qLen, qHead, qLast, qNil⟩ := ih (extendBuffer buf batch)
      have hrun : assemblerRun i o buf (batch :: rest) =
          ((assemblerRun i o (extendBuffer buf batch) rest).1,
           (assemblerRun i o (extendBuffer buf batch) rest).2) := by
        show ((drainWindows i o (extendBuffer buf batch)).1
            ++ (assemblerRun i o (drainWindows i o (extendBuffer buf batch)).2 rest).1,
           (assemblerRun i o (drainWindows i o (extendBuffer buf batch)).2 rest).2) = _
        rw [hdw]
        simp
      rw [hrun]
      refine ⟨qChain, qLen, ?_, qLast, ?_⟩
      · intro hb w hw
        rw [qHead (le_trans hb hbuf1) w hw, htake1 o hb]
      · intro hnil
        exact (List.prefix_append buf batch.flatten).trans (qNil hnil)

/-- **C1**: Over any run of the assembler loop with
`overlap_bytes < interval_bytes`, any two consecutively cut windows agree on
the overlap (the first `overlap_bytes` bytes of the later window are the last
`overlap_bytes` bytes of the earlier one, every window having exactly
`interval_bytes` bytes); equivalently, after each extraction the retained
buffer begins with exactly the trailing `overlap_bytes` of the extracted
window. -/
theorem assembler_window_overlap (i o : ℕ) (ho : o < i) (buf : List ℕ)
    (batches : List (List (List ℕ))) :
    List.Chain' (OverlapRel i o) (assemblerRun i o buf batches).1
    ∧ (∀ w ∈ (assemblerRun i o buf batches).1, w.length = i)
    ∧ (∀ b : List ℕ, i ≤ b.length →
        ((cutWindow i o b).2).take o = ((cutWindow i o b).1).drop (i - o)) := by
  obtain ⟨hChain, hLen, _, _, _⟩ := assemblerRun_spec i o ho batches buf
  refine ⟨hChain, hLen, ?_⟩
  intro b _
  show (b.drop (i - o)).take o = (b.take i).drop (i - o)
  rw [List.drop_take]
  congr 1
  omega

/-!
## DedupFilter: `AbstractTranscriber._apply_cleanup_strategy` and
`_update_transcription_history` (src/transcriber.py)

Text is modelled at the word level (`List String`), matching the code, which
immediately splits every fragment with `str.split()` and joins emitted words
back with single spaces.  `transcription_history` is a `deque(maxlen=N)` of
words; `list(history)[-i:]` is `takeRight i`.
-/

/-- The loop
`for i in range(1, min(len(words_in_text), len(history)) + 1): if
list(history)[-i:] == words_in_text[:i]: best_match_len = i`
from `_apply_cleanup_strategy`: scans `i = 1 .. min` in ascending order and
keeps the last (hence largest) matching `i`. -/
def bestMatchLen (history ws : List String) : ℕ :=
  (List.range' 1 (min ws.length history.length)).foldl
    (fun best i =>
      if history.drop (history.length - i) = ws.take i then i else best) 0

/-- `_apply_cleanup_strategy` for `cleanup_strategy == "simple_deduplication"`:
emit `words_in_text[best_match_len:]`. -/
def simpleDeduplication (history ws : List String) : List String :=
  ws.drop (bestMatchLen history ws)

/-- `_apply_cleanup_strategy`: dispatch on the configured strategy; anything
other than `"simple_deduplication"` (including `"none"`) passes the fragment
through unchanged. -/
def applyCleanupStrategy (strategy : String) (history ws : List String) :
    List String :=
  if strategy = "simple_deduplication" then simpleDeduplication history ws
  else ws

/-- `_update_transcription_history`: `deque(maxlen=N).extend(words)` keeps the
last `N` words of `history ++ words`. -/
def updateTranscriptionHistory (n : ℕ) (history ws : List String) :
    List String :=
  (history ++ ws).drop ((history ++ ws).length - n)

/-- The predicate "the last `k` words of history equal the first `k` words of
the fragment", used to state what the dedup scan computes. -/
def MatchAt (history ws : List String) (k : ℕ) : Prop :=
  history.drop (history.length - k) = ws.take k

instance (history ws : List String) : DecidablePred (MatchAt history ws) :=
  fun k =>
    inferInstanceAs (Decidable (history.drop (history.length - k) = ws.take k))

/-- The ascending scan with last-match-wins is exactly `Nat.findGreatest`. -/
theorem bestMatchLen_foldl_eq (history ws : List String) :
    ∀ n : ℕ,
      (List.range' 1 n).foldl
        (fun best i =>
          if history.drop (history.length - i) = ws.take i then i else best) 0
        = Nat.findGreatest (MatchAt history ws) n := by
  intro n
  induction n with
  | zero => rfl
  | succ n ihn =>
    rw [List.range'_1_concat, List.foldl_append, ihn]
    simp only [List.foldl_cons, List.foldl_nil, Nat.findGreatest_succ, Nat.add_comm 1 n]
    by_cases hp : MatchAt history ws (n + 1)
    · have hp' : history.drop (history.length - (n + 1)) = ws.take (n + 1) := hp
      rw [if_pos hp', if_pos hp]
    · have hp' : ¬(history.drop (history.length - (n + 1)) = ws.take (n + 1)) := hp
      rw [if_neg hp', if_neg hp]

theorem bestMatchLen_eq_findGreatest (history ws : List String) :
    bestMatchLen history ws
      = Nat.findGreatest (MatchAt history ws) (min ws.length history.length) :=
  bestMatchLen_foldl_eq history ws _

/-- **C3**: with strategy `"simple_deduplication"`, the cleanup computes the
largest `k ≤ min (len ws) (len history)` such that the last `k` words of
history equal the first `k` words of the fragment, and emits exactly
`ws.drop k`; when no positive `k` matches, the fragment is emitted
unmodified. -/
theorem cleanup_simple_deduplication_spec (history ws : List String) :
    (∃ k : ℕ,
      applyCleanupStrategy "simple_deduplication" history ws = ws.drop k
      ∧ k ≤ min ws.length history.length
      ∧ MatchAt history ws k
      ∧ (∀ j : ℕ, k < j → j ≤ min ws.length history.length →
          ¬MatchAt history ws j))
    ∧ ((∀ j : ℕ, 0 < j → j ≤ min ws.length history.length →
          ¬MatchAt history ws j) →
        applyCleanupStrategy "simple_deduplication" history ws = ws) := by
  constructor
  · refine ⟨Nat.findGreatest (MatchAt history ws) (min ws.length history.length),
      ?_, Nat.findGreatest_le _, ?_, ?_⟩
    · show simpleDeduplication history ws = _
      rw [simpleDeduplication, bestMatchLen_eq_findGreatest]
    · rcases Nat.eq_zero_or_pos
        (Nat.findGreatest (MatchAt history ws) (min ws.length history.length))
        with h0 | hpos
      · rw [h0]
        show history.drop (history.length - 0) = ws.take 0
        simp
      · exact Nat.findGreatest_of_ne_zero rfl (Nat.pos_iff_ne_zero.mp hpos)
    · intro j hj hjle
      exact Nat.findGreatest_is_greatest hj hjle
  · intro hnone
    show simpleDeduplication history ws = ws
    rw [simpleDeduplication, bestMatchLen_eq_findGreatest]
    have h0 : Nat.findGreatest (MatchAt history ws) (min ws.length history.length) = 0 :=
      Nat.findGreatest_eq_zero_iff.mpr hnone
    rw [h0, List.drop_zero]

/-- If the fragment's words are fully contained in the tail of history, the
dedup scan matches the whole fragment and the emission is empty. -/
theorem simpleDeduplication_tail_contained (history ws : List String)
    (hlen : ws.length ≤ history.length)
    (htail : history.drop (history.length - ws.length) = ws) :
    simpleDeduplication history ws = [] := by
  have hmatch : MatchAt history ws ws.length := by
    rw [MatchAt, htail, List.take_of_length_le (le_refl ws.length)]
  have hmin : min ws.length history.length = ws.length := Nat.min_eq_left hlen
  have hge : ws.length ≤ bestMatchLen history ws := by
    rw [bestMatchLen_eq_findGreatest, hmin]
    exact Nat.le_findGreatest (le_refl _) hmatch
  rw [simpleDeduplication]
  exact List.drop_of_length_le hge

/-!
## The full per-iteration step of `AbstractTranscriber.run` (C2, C9)

One iteration of the `while self._running:` loop: drain the queue into the
buffer; if at least one complete window is available, cut *all* complete
windows (the nested `while`), convert the last one to normalized floats and
transcribe it (the `text = self._transcribe_audio(audio_np)` call sits after
the nested loop, so only the final `audio_np` is transcribed); forward the
cleaned text and update the history only when both the raw and the cleaned
text are nonempty.  Any exception from the engine call is caught by the
iteration's `except Exception` handler, which just logs and continues.
-/

/-- `np.frombuffer(chunk, dtype=np.int16)`: consecutive little-endian byte
pairs read as signed 16-bit values. -/
def bytesToInt16 : List ℕ → List ℤ
  | b0 :: b1 :: rest =>
    (if b0 + 256 * b1 < 32768 then ((b0 + 256 * b1 : ℕ) : ℤ)
      else ((b0 + 256 * b1 : ℕ) : ℤ) - 65536) :: bytesToInt16 rest
  | _ => []

/-- `.astype(np.float32) / 32768.0`: normalized float samples (exact here,
as all values are small dyadic rationals). -/
def bytesToAudioFloats (w : List ℕ) : List ℚ :=
  (bytesToInt16 w).map (fun v => (v : ℚ) / 32768)

/-- The state of `AbstractTranscriber` relevant to one loop iteration. -/
structure TranscriberState where
  audioBuffer : List ℕ
  transcriptionHistory : List String
deriving DecidableEq, Repr

/-- The tail of a loop iteration after the nested drain: transcribe the
final `audio_np` (here: the last drained window `w`, as floats), and if both
the raw text and the cleaned text are nonempty, forward the cleaned text and
update the history.  `Except.error` models a raised engine exception, caught
by the iteration's handler. -/
def processLastWindow (n : ℕ) (strategy : String)
    (transcribeAudio : List ℚ → Except String (List String))
    (history : List String) (buf2 w : List ℕ) :
    TranscriberState × Option (List String) :=
  match transcribeAudio (bytesToAudioFloats w) with
  | Except.error _ => ({ audioBuffer := buf2, transcriptionHistory := history }, none)
  | Except.ok text =>
    if text ≠ [] then
      if applyCleanupStrategy strategy history text ≠ [] then
        ({ audioBuffer := buf2,
           transcriptionHistory := updateTranscriptionHistory n history
             (applyCleanupStrategy strategy history text) },
          some (applyCleanupStrategy strategy history text))
      else ({ audioBuffer := buf2, transcriptionHistory := history }, none)
    else ({ audioBuffer := buf2, transcriptionHistory := history }, none)

/-- One iteration of the transcriber loop.  Returns the new state and the
text (if any) forwarded to the display manager. -/
def transcriberStep (i o n : ℕ) (strategy : String)
    (transcribeAudio : List ℚ → Except String (List String))
    (incoming : List (List ℕ)) (s : TranscriberState) :
    TranscriberState × Option (List String) :=
  if i ≤ (extendBuffer s.audioBuffer incoming).length then
    match (drainWindows i o (extendBuffer s.audioBuffer incoming)).1.getLast? with
    | none =>
      ({ s with audioBuffer := (drainWindows i o (extendBuffer s.audioBuffer incoming)).2 },
        none)
    | some w =>
      processLastWindow n strategy transcribeAudio s.transcriptionHistory
        (drainWindows i o (extendBuffer s.audioBuffer incoming)).2 w
  else ({ s with audioBuffer := extendBuffer s.audioBuffer incoming }, none)

theorem transcriberStep_some (i o n : ℕ) (strategy : String)
    (transcribeAudio : List ℚ → Except String (List String))
    (incoming : List (List ℕ)) (s : TranscriberState) (w : List ℕ)
    (hb : i ≤ (extendBuffer s.audioBuffer incoming).length)
    (hw : (drainWindows i o (extendBuffer s.audioBuffer incoming)).1.getLast? = some w) :
    transcriberStep i o n strategy transcribeAudio incoming s
      = processLastWindow n strategy transcribeAudio s.transcriptionHistory
          (drainWindows i o (extendBuffer s.audioBuffer incoming)).2 w := by
  unfold transcriberStep
  rw [if_pos hb, hw]

theorem transcriberStep_short (i o n : ℕ) (strategy : String)
    (transcribeAudio : List ℚ → Except String (List String))
    (incoming : List (List ℕ)) (s : TranscriberState)
    (hb : ¬ i ≤ (extendBuffer s.audioBuffer incoming).length) :
    transcriberStep i o n strategy transcribeAudio incoming s
      = ({ s with audioBuffer := extendBuffer s.audioBuffer incoming }, none) := by
  unfold transcriberStep
  rw [if_neg hb]

theorem processLastWindow_buffer (n : ℕ) (strategy : String)
    (transcribeAudio : List ℚ → Except String (List String))
    (history : List String) (buf2 w : List ℕ) :
    (processLastWindow n strategy transcribeAudio history buf2 w).1.audioBuffer = buf2 := by
  unfold processLastWindow
  rcases transcribeAudio (bytesToAudioFloats w) with e | text
  · rfl
  · dsimp only
    split_ifs <;> rfl

/-- **C2**: after each iteration, no complete window remains in the buffer
(all complete windows are drained before the channel is polled again), and
the step's forwarded text and history update depend only on the *last*
drained window (and the prior history): any two iterations whose drains end
in the same last window forward the same text — intermediate windows
contribute nothing. -/
theorem processLastWindow_congr (n : ℕ) (strategy : String)
    (transcribeAudio : List ℚ → Except String (List String))
    (history : List String) (buf2 buf2' w : List ℕ) :
    (processLastWindow n strategy transcribeAudio history buf2 w).2
      = (processLastWindow n strategy transcribeAudio history buf2' w).2
    ∧ (processLastWindow n strategy transcribeAudio history buf2 w).1.transcriptionHistory
      = (processLastWindow n strategy transcribeAudio history buf2' w).1.transcriptionHistory := by
  unfold processLastWindow
  rcases transcribeAudio (bytesToAudioFloats w) with e | text
  · exact ⟨rfl, rfl⟩
  · dsimp only
    split_ifs <;> exact ⟨rfl, rfl⟩

theorem catchup_drains_all_and_forwards_last
    (i o n : ℕ) (ho : o < i) (strategy : String)
    (transcribeAudio : List ℚ → Except String (List String))
    (incoming incoming' : List (List ℕ)) (s s' : TranscriberState)
    (hlast : (drainWindows i o (extendBuffer s.audioBuffer incoming)).1.getLast?
        = (drainWindows i o (extendBuffer s'.audioBuffer incoming')).1.getLast?)
    (hhist : s.transcriptionHistory = s'.transcriptionHistory) :
    (transcriberStep i o n strategy transcribeAudio incoming s).1.audioBuffer.length < i
    ∧ (transcriberStep i o n strategy transcribeAudio incoming s).2
      = (transcriberStep i o n strategy transcribeAudio incoming' s').2
    ∧ (transcriberStep i o n strategy transcribeAudio incoming s).1.transcriptionHistory
      = (transcriberStep i o n strategy transcribeAudio incoming' s').1.transcriptionHistory := by
  have hdrop : ∀ buf : List ℕ, (drainWindows i o buf).2.length < i := by
    intro buf
    exact (drainWindows_spec i o ho buf).2.2.1
  have hnonempty : ∀ buf : List ℕ, i ≤ buf.length →
      ∃ lw, (drainWindows i o buf).1.getLast? = some lw := by
    intro buf hb
    rcases hlw : (drainWindows i o buf).1.getLast? with _ | lw
    · rw [List.getLast?_eq_none_iff, drainWindows_pos i o buf ⟨by omega, hb⟩] at hlw
      simp at hlw
    · exact ⟨lw, rfl⟩
  have hempty : ∀ buf : List ℕ, ¬ i ≤ buf.length →
      (drainWindows i o buf).1.getLast? = none := by
    intro buf hb
    rw [drainWindows_neg i o buf (by omega)]
    rfl
  constructor
  · -- all complete windows are drained before the next poll
    by_cases hb : i ≤ (extendBuffer s.audioBuffer incoming).length
    · obtain ⟨lw, hlw⟩ := hnonempty _ hb
      rw [transcriberStep_some i o n strategy transcribeAudio incoming s lw hb hlw,
        processLastWindow_buffer]
      exact hdrop _
    · rw [transcriberStep_short i o n strategy transcribeAudio incoming s hb]
      dsimp only
      omega
  · -- the output depends only on the last drained window and the history
    by_cases hb : i ≤ (extendBuffer s.audioBuffer incoming).length
      <;> by_cases hb' : i ≤ (extendBuffer s'.audioBuffer incoming').length
    · obtain ⟨lw, hlw⟩ := hnonempty _ hb
      have hlw' : (drainWindows i o (extendBuffer s'.audioBuffer incoming')).1.getLast?
          = some lw := by rw [← hlast]; exact hlw
      rw [transcriberStep_some i o n strategy transcribeAudio incoming s lw hb hlw,
        transcriberStep_some i o n strategy transcribeAudio incoming' s' lw hb' hlw',
        hhist]
      exact processLastWindow_congr n strategy transcribeAudio
        s'.transcriptionHistory _ _ lw
    · obtain ⟨lw, hlw⟩ := hnonempty _ hb
      rw [hlw, hempty _ hb'] at hlast
      exact absurd hlast (by simp)
    · obtain ⟨lw, hlw⟩ := hnonempty _ hb'
      rw [hlw, hempty _ hb] at hlast
      exact absurd hlast (by simp)
    · rw [transcriberStep_short i o n strategy transcribeAudio incoming s hb,
        transcriberStep_short i o n strategy transcribeAudio incoming' s' hb']
      exact ⟨rfl, hhist⟩

/-- **C9**: if the engine call on the (last drained) window raises, the
iteration forwards nothing and leaves the transcription history — the entire
deduplication state — exactly as it was; the buffer is still drained exactly
as in a successful iteration, so the loop continues with the next window. -/
theorem engine_error_preserves_state
    (i o n : ℕ) (strategy : String)
    (transcribeAudio : List ℚ → Except String (List String))
    (incoming : List (List ℕ)) (s : TranscriberState)
    (herr : ∀ w, (drainWindows i o (extendBuffer s.audioBuffer incoming)).1.getLast? = some w →
        ∃ e, transcribeAudio (bytesToAudioFloats w) = Except.error e) :
    (transcriberStep i o n strategy transcribeAudio incoming s).2 = none
    ∧ (transcriberStep i o n strategy transcribeAudio incoming s).1.transcriptionHistory
      = s.transcriptionHistory
    ∧ (transcriberStep i o n strategy transcribeAudio incoming s).1.audioBuffer
      = (drainWindows i o (extendBuffer s.audioBuffer incoming)).2 := by
  by_cases hb : i ≤ (extendBuffer s.audioBuffer incoming).length
  · rcases hw : (drainWindows i o (extendBuffer s.audioBuffer incoming)).1.getLast?
      with _ | w
    · have heq : transcriberStep i o n strategy transcribeAudio incoming s
          = ({ s with
                audioBuffer := (drainWindows i o (extendBuffer s.audioBuffer incoming)).2 },
              none) := by
        unfold transcriberStep
        rw [if_pos hb, hw]
      rw [heq]
      exact ⟨rfl, rfl, rfl⟩
    · obtain ⟨e, he⟩ := herr w hw
      rw [transcriberStep_some i o n strategy transcribeAudio incoming s w hb hw]
      unfold processLastWindow
      rw [he]
      exact ⟨rfl, rfl, rfl⟩
  · rw [transcriberStep_short i o n strategy transcribeAudio incoming s hb]
    refine ⟨rfl, rfl, ?_⟩
    rw [drainWindows_neg i o _ (fun hcontra => hb hcontra.2)]

/-- Witness for C2: a behind-consumer buffer holding three complete windows
versus a buffer holding just the same final window — same last window, same
forwarded text. -/
theorem catchup_drains_all_and_forwards_last_witness :
    (transcriberStep 2 1 5 "simple_deduplication" (fun _ => Except.ok ["hi"])
        [[0, 0, 1, 0]] ⟨[], []⟩).1.audioBuffer.length < 2
    ∧ (transcriberStep 2 1 5 "simple_deduplication" (fun _ => Except.ok ["hi"])
        [[0, 0, 1, 0]] ⟨[], []⟩).2
      = (transcriberStep 2 1 5 "simple_deduplication" (fun _ => Except.ok ["hi"])
        [] ⟨[1, 0], []⟩).2
    ∧ (transcriberStep 2 1 5 "simple_deduplication" (fun _ => Except.ok ["hi"])
        [[0, 0, 1, 0]] ⟨[], []⟩).1.transcriptionHistory
      = (transcriberStep 2 1 5 "simple_deduplication" (fun _ => Except.ok ["hi"])
        [] ⟨[1, 0], []⟩).1.transcriptionHistory :=
  catchup_drains_all_and_forwards_last 2 1 5 (by norm_num) "simple_deduplication"
    (fun _ => Except.ok ["hi"]) [[0, 0, 1, 0]] [] ⟨[], []⟩ ⟨[1, 0], []⟩
    (by simp [drainWindows, extendBuffer]) rfl

/-- Witness for C9: an engine that always raises leaves the history intact
and forwards nothing. -/
theorem engine_error_preserves_state_witness :
    (transcriberStep 2 1 5 "simple_deduplication"
        (fun _ => Except.error "boom") [[7, 7]] ⟨[], ["w"]⟩).2 = none
    ∧ (transcriberStep 2 1 5 "simple_deduplication"
        (fun _ => Except.error "boom") [[7, 7]] ⟨[], ["w"]⟩).1.transcriptionHistory
      = (⟨[], ["w"]⟩ : TranscriberState).transcriptionHistory
    ∧ (transcriberStep 2 1 5 "simple_deduplication"
        (fun _ => Except.error "boom") [[7, 7]] ⟨[], ["w"]⟩).1.audioBuffer
      = (drainWindows 2 1 (extendBuffer ([] : List ℕ) [[7, 7]])).2 :=
  engine_error_preserves_state 2 1 5 "simple_deduplication"
    (fun _ => Except.error "boom") [[7, 7]] ⟨[], ["w"]⟩
    (fun _ _ => ⟨"boom", rfl⟩)

/-- Witness for C3, at the spec's own concrete scenario:
history `["the","cat"]`, fragment `"cat sat down"`. -/
theorem cleanup_simple_deduplication_spec_witness :
    (∃ k : ℕ,
      applyCleanupStrategy "simple_deduplication" ["the", "cat"] ["cat", "sat", "down"]
          = ["cat", "sat", "down"].drop k
      ∧ k ≤ min (["cat", "sat", "down"] : List String).length (["the", "cat"] : List String).length
      ∧ MatchAt ["the", "cat"] ["cat", "sat", "down"] k
      ∧ (∀ j : ℕ, k < j →
          j ≤ min (["cat", "sat", "down"] : List String).length (["the", "cat"] : List String).length →
          ¬MatchAt ["the", "cat"] ["cat", "sat", "down"] j))
    ∧ ((∀ j : ℕ, 0 < j →
          j ≤ min (["cat", "sat", "down"] : List String).length (["the", "cat"] : List String).length →
          ¬MatchAt ["the", "cat"] ["cat", "sat", "down"] j) →
        applyCleanupStrategy "simple_deduplication" ["the", "cat"] ["cat", "sat", "down"]
          = ["cat", "sat", "down"]) :=
  cleanup_simple_deduplication_spec ["the", "cat"] ["cat", "sat", "down"]

/-- **C4 counterexample**: re-running the dedup filter on its own
already-filtered output is *not* always a no-op.  With history capacity 1,
empty history and fragment `"a b"`, the first application emits `["a","b"]`
(nothing matches), the history update retains only `["b"]`, and the second
application of the filter to the same output re-emits `["a","b"]` — a
nonempty (duplicate) second emission, not a no-op.  Under the other reading
(same history, no update in between): with history `["a","a"]` and fragment
`"a a a"` the first application emits `["a"]` but the second application to
that output emits `[]` — the second application changes the output. -/
theorem dedup_idempotence_counterexample :
    simpleDeduplication [] ["a", "b"] = ["a", "b"]
    ∧ updateTranscriptionHistory 1 [] (simpleDeduplication [] ["a", "b"]) = ["b"]
    ∧ simpleDeduplication
        (updateTranscriptionHistory 1 [] (simpleDeduplication [] ["a", "b"]))
        (simpleDeduplication [] ["a", "b"]) = ["a", "b"]
    ∧ simpleDeduplication
        (updateTranscriptionHistory 1 [] (simpleDeduplication [] ["a", "b"]))
        (simpleDeduplication [] ["a", "b"]) ≠ []
    ∧ simpleDeduplication ["a", "a"] ["a", "a", "a"] = ["a"]
    ∧ simpleDeduplication ["a", "a"] (simpleDeduplication ["a", "a"] ["a", "a", "a"]) = []
    ∧ simpleDeduplication ["a", "a"] (simpleDeduplication ["a", "a"] ["a", "a", "a"])
        ≠ simpleDeduplication ["a", "a"] ["a", "a", "a"] := by
  decide

/-- After a history update that appended `ws`, `ws` is fully contained in the
tail of the updated history, provided it fits within the capacity `n`. -/
theorem updateTranscriptionHistory_tail (n : ℕ) (history ws : List String)
    (h : ws.length ≤ n) :
    ws.length ≤ (updateTranscriptionHistory n history ws).length
    ∧ (updateTranscriptionHistory n history ws).drop
        ((updateTranscriptionHistory n history ws).length - ws.length) = ws := by
  constructor
  · rw [updateTranscriptionHistory, List.length_drop, List.length_append]
    omega
  · rw [updateTranscriptionHistory, List.drop_drop]
    convert List.drop_left history ws using 2
    simp only [List.length_drop, List.length_append]
    omega

/-- **C4 (amended)**: if a fragment's words are identical to and fully
contained in the tail of the history, dedup emits the empty word list; and
re-applying the filter to an already-filtered output — after the history
update that follows an emission — emits nothing, *provided* the emitted
output fits within the history capacity `n`.  (When the second emission is
empty, the run loop's `if cleaned_text:` guard skips both forwarding and the
history update, so the second application changes nothing.) -/
theorem dedup_idempotence_amended (n : ℕ) (history ws fragment : List String) :
    (fragment.length ≤ history.length →
      history.drop (history.length - fragment.length) = fragment →
      simpleDeduplication history fragment = [])
    ∧ ((simpleDeduplication history ws).length ≤ n →
        simpleDeduplication
          (updateTranscriptionHistory n history (simpleDeduplication history ws))
          (simpleDeduplication history ws) = []) := by
  constructor
  · exact fun h1 h2 => simpleDeduplication_tail_contained history fragment h1 h2
  · intro hcap
    obtain ⟨hln, htl⟩ :=
      updateTranscriptionHistory_tail n history (simpleDeduplication history ws) hcap
    exact simpleDeduplication_tail_contained _ _ hln htl

/-- Witness for C4 (amended) at concrete inputs: history
`["x","cat","sat"]` with exact-repeat fragment `["cat","sat"]`, and
refiltering `["sat","down"]`'s output under capacity 5. -/
theorem dedup_idempotence_amended_witness :
    simpleDeduplication ["x", "cat", "sat"] ["cat", "sat"] = []
    ∧ simpleDeduplication
        (updateTranscriptionHistory 5 ["x", "cat", "sat"]
          (simpleDeduplication ["x", "cat", "sat"] ["sat", "down"]))
        (simpleDeduplication ["x", "cat", "sat"] ["sat", "down"]) = [] :=
  ⟨(dedup_idempotence_amended 5 ["x", "cat", "sat"] ["sat", "down"] ["cat", "sat"]).1
      (by decide) (by decide),
    (dedup_idempotence_amended 5 ["x", "cat", "sat"] ["sat", "down"] ["cat", "sat"]).2
      (by decide)⟩

end Transcriber

namespace WordDisplayManager

/-!
## WordPacer / ScrollModel: `WordDisplayManager` (src/src/ui/word_display_manager.py
and src/word_display_manager.py)

Both copies share the same `update` core: pull queued texts into the pending
deque, release at most one pending word per call when at least
`word_display_interval_ms` elapsed since the last release, scroll every
active word left by `scroll_speed * delta_time / 1000`, then evict from the
front while the first word's right edge is `< 0` and from the back while the
last word's `x` exceeds `screen_width`.  They differ only in the first
word's anchor: `screen_width / 2 + text_start_offset` in the `src/src/ui`
copy versus `screen_width / 2 + word_spacing / 2` in the top-level copy; we
keep the anchor offset a parameter (`textStartOffset`), which covers both.
`font.render(...).get_width()` is the opaque `measure` function.  The
top-level copy has no readiness gate and no queue (texts are pushed
directly); it is the instance `ready = true` of this embedding.  The
LLM-response handling touches only its own separate deque and is omitted.
Positions (Python floats, exact for the arithmetic involved) are `ℚ`;
`pygame.time.get_ticks()` readings are `ℤ`.
-/

/-- One entry of `active_display_words`:
`{'text': ..., 'x': ..., 'width': ...}`. -/
structure DisplayWord where
  text : String
  x : ℚ
  width : ℚ
deriving DecidableEq, Repr

/-- The mutable display state: the active deque, the pending deque and
`last_word_display_time`. -/
structure WDMState where
  activeDisplayWords : List DisplayWord
  pendingDisplayWords : List String
  lastWordDisplayTime : ℤ
deriving DecidableEq, Repr

/-- The configuration consumed by `update`. -/
structure WDMConfig where
  screenWidth : ℚ
  scrollSpeed : ℚ
  wordDisplayIntervalMs : ℤ
  textStartOffset : ℚ
  wordSpacing : ℚ
deriving DecidableEq, Repr

/-- The queue-pull loop at the top of `update`: each waiting text is split
into words which are appended to the pending deque (a text is given here as
its word list). -/
def pullTranscribedTexts (s : WDMState) (incoming : List (List String)) :
    WDMState :=
  { s with pendingDisplayWords := s.pendingDisplayWords ++ incoming.flatten }

/-- The release block of `update`: if the pending deque is nonempty and at
least `word_display_interval_ms` elapsed since the last release, pop exactly
one word, measure it, place it after the last active word (or at the anchor
if none) and record the release time.  Also returns the released word. -/
def releaseWord (cfg : WDMConfig) (measure : String → ℚ) (now : ℤ)
    (s : WDMState) : WDMState × Option String :=
  match s.pendingDisplayWords with
  | [] => (s, none)
  | w :: rest =>
    if cfg.wordDisplayIntervalMs ≤ now - s.lastWordDisplayTime then
      ({ activeDisplayWords :=
            s.activeDisplayWords ++
              [⟨w,
                match s.activeDisplayWords.getLast? with
                | none => cfg.screenWidth / 2 + cfg.textStartOffset
                | some last => last.x + last.width + cfg.wordSpacing,
                measure w⟩],
          pendingDisplayWords := rest,
          lastWordDisplayTime := now }, some w)
    else (s, none)

/-- `word_data['x'] -= scroll_amount` for every active word, with
`scroll_amount = scroll_speed * delta_time / 1000`. -/
def scrollWords (scrollSpeed dt : ℚ) (ws : List DisplayWord) :
    List DisplayWord :=
  ws.map (fun w => { w with x := w.x - scrollSpeed * dt / 1000 })

/-- `while active and (active[0].x + active[0].width) < 0: popleft()`. -/
def evictLeft (ws : List DisplayWord) : List DisplayWord :=
  ws.dropWhile (fun w => decide (w.x + w.width < 0))

/-- `while active and active[-1].x > screen_width: pop()`. -/
def evictRight (screenWidth : ℚ) (ws : List DisplayWord) : List DisplayWord :=
  ((ws.reverse.dropWhile (fun w => decide (screenWidth < w.x))).reverse)

/-- One `update(delta_time)` call.  The `ready` flag models
`transcriber_ready_event.is_set()` (the `src/src/ui` copy returns at once
when unset).  Besides the new state we expose the word (if any) released
from pending to active, which the Python method performs as a side effect. -/
def update (cfg : WDMConfig) (measure : String → ℚ) (ready : Bool)
    (incoming : List (List String)) (now : ℤ) (dt : ℚ) (s : WDMState) :
    WDMState × Option String :=
  if ready then
    ({ (releaseWord cfg measure now (pullTranscribedTexts s incoming)).1 with
        activeDisplayWords :=
          evictRight cfg.screenWidth (evictLeft (scrollWords cfg.scrollSpeed dt
            (releaseWord cfg measure now (pullTranscribedTexts s incoming)).1.activeDisplayWords)) },
      (releaseWord cfg measure now (pullTranscribedTexts s incoming)).2)
  else (s, none)

/-- What `draw` renders: the paused indicator, the loading indicator, or the
active words.  (`draw` checks `is_transcriber_paused_func()` first and
returns after blitting "Transcription Paused"; then the readiness flag,
returning after "Initializing Transcription..."; otherwise it blits the
active words.  It mutates none of the word collections.) -/
inductive DrawOutput where
  | pausedIndicator
  | loadingIndicator
  | activeWords (ws : List DisplayWord)
deriving DecidableEq, Repr

def draw (paused ready : Bool) (s : WDMState) : DrawOutput :=
  if paused then DrawOutput.pausedIndicator
  else if !ready then DrawOutput.loadingIndicator
  else DrawOutput.activeWords s.activeDisplayWords

/-- One UI frame as `main.py` drives it: `update(delta_time)` is called
unconditionally (pause is never consulted there), then `draw`. -/
def frameStep (cfg : WDMConfig) (measure : String → ℚ) (paused ready : Bool)
    (incoming : List (List String)) (now : ℤ) (dt : ℚ) (s : WDMState) :
    WDMState × Option String × DrawOutput :=
  ((update cfg measure ready incoming now dt s).1,
    (update cfg measure ready incoming now dt s).2,
    draw paused ready (update cfg measure ready incoming now dt s).1)

/-- A sequence of `update` calls (`ready` throughout), collecting the
released words with their release times. -/
def updateRun (cfg : WDMConfig) (measure : String → ℚ) (s : WDMState) :
    List (List (List String) × ℤ × ℚ) → WDMState × List (ℤ × String)
  | [] => (s, [])
  | f :: fs =>
    ((updateRun cfg measure (update cfg measure true f.1 f.2.1 f.2.2 s).1 fs).1,
      match (update cfg measure true f.1 f.2.1 f.2.2 s).2 with
      | some w =>
        (f.2.1, w) :: (updateRun cfg measure (update cfg measure true f.1 f.2.1 f.2.2 s).1 fs).2
      | none => (updateRun cfg measure (update cfg measure true f.1 f.2.1 f.2.2 s).1 fs).2)

theorem releaseWord_cases (cfg : WDMConfig) (measure : String → ℚ) (now : ℤ)
    (s : WDMState) :
    (∃ w rest, s.pendingDisplayWords = w :: rest
      ∧ cfg.wordDisplayIntervalMs ≤ now - s.lastWordDisplayTime
      ∧ (releaseWord cfg measure now s).2 = some w
      ∧ (releaseWord cfg measure now s).1.pendingDisplayWords = rest
      ∧ (releaseWord cfg measure now s).1.lastWordDisplayTime = now)
    ∨ ((releaseWord cfg measure now s).1 = s
      ∧ (releaseWord cfg measure now s).2 = none) := by
  rcases hp : s.pendingDisplayWords with _ | ⟨w, rest⟩
  · right
    unfold releaseWord
    rw [hp]
    exact ⟨rfl, rfl⟩
  · by_cases ht : cfg.wordDisplayIntervalMs ≤ now - s.lastWordDisplayTime
    · left
      refine ⟨w, rest, rfl, ht, ?_, ?_, ?_⟩
      all_goals unfold releaseWord
      all_goals rw [hp]
      all_goals dsimp only
      all_goals rw [if_pos ht]
    · right
      unfold releaseWord
      rw [hp]
      dsimp only
      rw [if_neg ht]
      exact ⟨rfl, rfl⟩

theorem update_pending (cfg : WDMConfig) (measure : String → ℚ)
    (incoming : List (List String)) (now : ℤ) (dt : ℚ) (s : WDMState) :
    (update cfg measure true incoming now dt s).1.pendingDisplayWords
      = (releaseWord cfg measure now (pullTranscribedTexts s incoming)).1.pendingDisplayWords :=
  rfl

theorem update_lastTime (cfg : WDMConfig) (measure : String → ℚ)
    (incoming : List (List String)) (now : ℤ) (dt : ℚ) (s : WDMState) :
    (update cfg measure true incoming now dt s).1.lastWordDisplayTime
      = (releaseWord cfg measure now (pullTranscribedTexts s incoming)).1.lastWordDisplayTime :=
  rfl

theorem update_released (cfg : WDMConfig) (measure : String → ℚ)
    (incoming : List (List String)) (now : ℤ) (dt : ℚ) (s : WDMState) :
    (update cfg measure true incoming now dt s).2
      = (releaseWord cfg measure now (pullTranscribedTexts s incoming)).2 :=
  rfl

theorem update_active (cfg : WDMConfig) (measure : String → ℚ)
    (incoming : List (List String)) (now : ℤ) (dt : ℚ) (s : WDMState) :
    (update cfg measure true incoming now dt s).1.activeDisplayWords
      = evictRight cfg.screenWidth (evictLeft (scrollWords cfg.scrollSpeed dt
          (releaseWord cfg measure now (pullTranscribedTexts s incoming)).1.activeDisplayWords)) :=
  rfl

/-- Release/no-release dichotomy for a full `update` call. -/
theorem update_cases (cfg : WDMConfig) (measure : String → ℚ)
    (incoming : List (List String)) (now : ℤ) (dt : ℚ) (s : WDMState) :
    (∃ w rest, s.pendingDisplayWords ++ incoming.flatten = w :: rest
      ∧ cfg.wordDisplayIntervalMs ≤ now - s.lastWordDisplayTime
      ∧ (update cfg measure true incoming now dt s).2 = some w
      ∧ (update cfg measure true incoming now dt s).1.pendingDisplayWords = rest
      ∧ (update cfg measure true incoming now dt s).1.lastWordDisplayTime = now)
    ∨ ((update cfg measure true incoming now dt s).2 = none
      ∧ (update cfg measure true incoming now dt s).1.pendingDisplayWords
        = s.pendingDisplayWords ++ incoming.flatten
      ∧ (update cfg measure true incoming now dt s).1.lastWordDisplayTime
        = s.lastWordDisplayTime) := by
  have hpp : (pullTranscribedTexts s incoming).pendingDisplayWords
      = s.pendingDisplayWords ++ incoming.flatten := rfl
  have hpt : (pullTranscribedTexts s incoming).lastWordDisplayTime
      = s.lastWordDisplayTime := rfl
  rcases releaseWord_cases cfg measure now (pullTranscribedTexts s incoming)
    with ⟨w, rest, h1, h2, h3, h4, h5⟩ | ⟨h1, h2⟩
  · left
    refine ⟨w, rest, ?_, ?_, ?_, ?_, ?_⟩
    · rw [← hpp]; exact h1
    · rw [← hpt]; exact h2
    · rw [update_released]; exact h3
    · rw [update_pending]; exact h4
    · rw [update_lastTime]; exact h5
  · right
    refine ⟨?_, ?_, ?_⟩
    · rw [update_released]; exact h2
    · rw [update_pending, h1]; exact hpp
    · rw [update_lastTime, h1]; exact hpt

theorem updateRun_cons (cfg : WDMConfig) (measure : String → ℚ) (s : WDMState)
    (f : List (List String) × ℤ × ℚ) (fs : List (List (List String) × ℤ × ℚ)) :
    updateRun cfg measure s (f :: fs)
      = ((updateRun cfg measure (update cfg measure true f.1 f.2.1 f.2.2 s).1 fs).1,
        match (update cfg measure true f.1 f.2.1 f.2.2 s).2 with
        | some w =>
          (f.2.1, w)
            :: (updateRun cfg measure (update cfg measure true f.1 f.2.1 f.2.2 s).1 fs).2
        | none => (updateRun cfg measure (update cfg measure true f.1 f.2.1 f.2.2 s).1 fs).2) :=
  rfl

/-- Run-level pacing facts: at most one release per `update`, each release at
least `word_display_interval_ms` after the previous one (and after the
starting `last_word_display_time`), and conservation of the word stream in
FIFO order. -/
theorem updateRun_spec (cfg : WDMConfig) (measure : String → ℚ) :
    ∀ (frames : List (List (List String) × ℤ × ℚ)) (s : WDMState),
    (updateRun cfg measure s frames).2.length ≤ frames.length
    ∧ List.Chain' (fun a b : ℤ × String => cfg.wordDisplayIntervalMs ≤ b.1 - a.1)
        (updateRun cfg measure s frames).2
    ∧ (∀ a ∈ (updateRun cfg measure s frames).2.head?,
        cfg.wordDisplayIntervalMs ≤ a.1 - s.lastWordDisplayTime)
    ∧ (updateRun cfg measure s frames).2.map Prod.snd
        ++ (updateRun cfg measure s frames).1.pendingDisplayWords
      = s.pendingDisplayWords ++ (frames.map (fun f => f.1.flatten)).flatten := by
  intro frames
  induction frames with
  | nil =>
    intro s
    refine ⟨le_refl _, List.chain'_nil, by simp [updateRun], ?_⟩
    simp [updateRun]
  | cons f fs ih =>
    intro s
    obtain ⟨ihLen, ihChain, ihHead, ihFifo⟩ :=
      ih (update cfg measure true f.1 f.2.1 f.2.2 s).1
    rcases update_cases cfg measure f.1 f.2.1 f.2.2 s
      with ⟨w, rest, h1, h2, h3, h4, h5⟩ | ⟨h1, h2, h3⟩
    · rw [updateRun_cons, h3]
      dsimp only
      refine ⟨?_, ?_, ?_, ?_⟩
      · simp only [List.length_cons]
        exact Nat.succ_le_succ ihLen
      · rw [List.chain'_cons']
        refine ⟨?_, ihChain⟩
        intro b hb
        have hb' := ihHead b hb
        rw [h5] at hb'
        exact hb'
      · intro a ha
        simp only [List.head?_cons, Option.mem_def, Option.some.injEq] at ha
        subst ha
        exact h2
      · have key := ihFifo
        rw [h4] at key
        simp only [List.map_cons, List.cons_append, List.flatten_cons]
        rw [key, ← List.cons_append, ← h1, List.append_assoc]
    · rw [updateRun_cons, h1]
      dsimp only
      refine ⟨?_, ihChain, ?_, ?_⟩
      · exact Nat.le_succ_of_le ihLen
      · intro a ha
        have ha' := ihHead a ha
        rw [h3] at ha'
        exact ha'
      · rw [ihFifo, h2]
        simp [List.append_assoc]

/-- **C6**: over any sequence of `update` calls and any backlog: at most one
word is released per call; a word is released only when at least
`word_display_interval_ms` elapsed since the previous release, so no two
releases are closer than `word_display_interval_ms`; and the released words,
followed by the remaining backlog, are exactly the arrival stream in FIFO
order. -/
theorem word_pacing_fifo (cfg : WDMConfig) (measure : String → ℚ)
    (frames : List (List (List String) × ℤ × ℚ)) (s : WDMState) :
    (∀ (incoming : List (List String)) (now : ℤ) (dt : ℚ) (t : WDMState),
      ((update cfg measure true incoming now dt t).2).toList.length ≤ 1)
    ∧ (updateRun cfg measure s frames).2.length ≤ frames.length
    ∧ List.Chain' (fun a b : ℤ × String => cfg.wordDisplayIntervalMs ≤ b.1 - a.1)
        (updateRun cfg measure s frames).2
    ∧ (updateRun cfg measure s frames).2.map Prod.snd
        ++ (updateRun cfg measure s frames).1.pendingDisplayWords
      = s.pendingDisplayWords ++ (frames.map (fun f => f.1.flatten)).flatten := by
  obtain ⟨hLen, hChain, _, hFifo⟩ := updateRun_spec cfg measure frames s
  refine ⟨?_, hLen, hChain, hFifo⟩
  intro incoming now dt t
  rcases (update cfg measure true incoming now dt t).2 with _ | w <;> simp

/-- `Chain'` survives dropping a prefix. -/
theorem chain'_dropWhile {α : Type} {R : α → α → Prop} (p : α → Bool) :
    ∀ {l : List α}, List.Chain' R l → List.Chain' R (l.dropWhile p) := by
  intro l
  induction l with
  | nil => intro h; exact h
  | cons a t ih =>
    intro h
    rw [List.dropWhile_cons]
    by_cases hp : p a = true
    · rw [if_pos hp]
      exact ih (List.chain'_cons'.mp h).2
    · rw [if_neg hp]
      exact h

theorem chain'_evictLeft {R : DisplayWord → DisplayWord → Prop} (ws : List DisplayWord)
    (h : List.Chain' R ws) : List.Chain' R (evictLeft ws) :=
  chain'_dropWhile _ h

theorem chain'_evictRight {R : DisplayWord → DisplayWord → Prop} (screenWidth : ℚ)
    (ws : List DisplayWord) (h : List.Chain' R ws) :
    List.Chain' R (evictRight screenWidth ws) := by
  unfold evictRight
  exact List.chain'_reverse.mpr (chain'_dropWhile _ (List.chain'_reverse.mpr h))

theorem chain'_scrollWords (scrollSpeed dt : ℚ) (ws : List DisplayWord)
    (h : List.Chain' (fun a b : DisplayWord => a.x < b.x) ws) :
    List.Chain' (fun a b : DisplayWord => a.x < b.x) (scrollWords scrollSpeed dt ws) := by
  unfold scrollWords
  rw [List.chain'_map]
  refine h.imp ?_
  intro a b hab
  dsimp only
  linarith

/-- The active deque after the release block: unchanged, or with one word
appended at `last.x + last.width + word_spacing` (at the anchor if empty). -/
theorem releaseWord_active (cfg : WDMConfig) (measure : String → ℚ) (now : ℤ)
    (s : WDMState) :
    (releaseWord cfg measure now s).1.activeDisplayWords = s.activeDisplayWords
    ∨ ∃ w : String,
        (releaseWord cfg measure now s).1.activeDisplayWords
          = s.activeDisplayWords ++
            [⟨w,
              match s.activeDisplayWords.getLast? with
              | none => cfg.screenWidth / 2 + cfg.textStartOffset
              | some last => last.x + last.width + cfg.wordSpacing,
              measure w⟩] := by
  rcases hp : s.pendingDisplayWords with _ | ⟨w, rest⟩
  · left
    unfold releaseWord
    rw [hp]
  · by_cases ht : cfg.wordDisplayIntervalMs ≤ now - s.lastWordDisplayTime
    · right
      refine ⟨w, ?_⟩
      unfold releaseWord
      rw [hp]
      dsimp only
      rw [if_pos ht]
    · left
      unfold releaseWord
      rw [hp]
      dsimp only
      rw [if_neg ht]

theorem chain'_releaseWord (cfg : WDMConfig) (measure : String → ℚ) (now : ℤ)
    (s : WDMState)
    (hspace : 0 < cfg.wordSpacing)
    (hwidths : ∀ w ∈ s.activeDisplayWords, 0 ≤ w.width)
    (h : List.Chain' (fun a b : DisplayWord => a.x < b.x) s.activeDisplayWords) :
    List.Chain' (fun a b : DisplayWord => a.x < b.x)
      (releaseWord cfg measure now s).1.activeDisplayWords := by
  rcases releaseWord_active cfg measure now s with ha | ⟨w, ha⟩
  · rw [ha]; exact h
  · rw [ha]
    refine h.append (List.chain'_singleton _) ?_
    intro x hx y hy
    simp only [List.head?_cons, Option.mem_def, Option.some.injEq] at hy
    subst hy
    simp only [Option.mem_def] at hx
    rw [hx]
    dsimp only
    have hwx : 0 ≤ x.width := hwidths x (List.mem_of_getLast?_eq_some hx)
    linarith

/-- **C10**: assuming nonnegative word widths and positive word spacing,
`update` preserves the strict left-to-right ordering of the active words'
x-positions (each release goes after the last word, scrolling shifts all
words equally, evictions only trim the ends); consequently any earlier word
in the deque lies strictly left of any later one — the front is the leftmost
word and the back the rightmost. -/
theorem active_words_strictly_ordered (cfg : WDMConfig) (measure : String → ℚ)
    (ready : Bool) (incoming : List (List String)) (now : ℤ) (dt : ℚ)
    (s : WDMState)
    (hspace : 0 < cfg.wordSpacing)
    (hwidths : ∀ w ∈ s.activeDisplayWords, 0 ≤ w.width)
    (hsorted : List.Chain' (fun a b : DisplayWord => a.x < b.x)
      s.activeDisplayWords) :
    List.Chain' (fun a b : DisplayWord => a.x < b.x)
      (update cfg measure ready incoming now dt s).1.activeDisplayWords
    ∧ ∀ (j k : ℕ)
        (hj : j < (update cfg measure ready incoming now dt s).1.activeDisplayWords.length)
        (hk : k < (update cfg measure ready incoming now dt s).1.activeDisplayWords.length),
        j < k →
        ((update cfg measure ready incoming now dt s).1.activeDisplayWords.get ⟨j, hj⟩).x
          < ((update cfg measure ready incoming now dt s).1.activeDisplayWords.get ⟨k, hk⟩).x := by
  have htrans : IsTrans DisplayWord (fun a b : DisplayWord => a.x < b.x) :=
    ⟨fun _ _ _ h1 h2 => lt_trans h1 h2⟩
  have hmain : List.Chain' (fun a b : DisplayWord => a.x < b.x)
      (update cfg measure ready incoming now dt s).1.activeDisplayWords := by
    cases ready with
    | false => exact hsorted
    | true =>
      rw [update_active]
      exact chain'_evictRight _ _ (chain'_evictLeft _ (chain'_scrollWords _ _ _
        (chain'_releaseWord cfg measure now (pullTranscribedTexts s incoming)
          hspace hwidths hsorted)))
  refine ⟨hmain, ?_⟩
  have hpw := (@List.chain'_iff_pairwise _ _ htrans _).mp hmain
  intro j k hj hk hjk
  have hjk' := List.pairwise_iff_getElem.mp hpw j k hj hk hjk
  simp only [List.get_eq_getElem]
  exact hjk'

/-- Witness for C10 at a concrete ordered state with a pending word. -/
theorem active_words_strictly_ordered_witness :
    List.Chain' (fun a b : DisplayWord => a.x < b.x)
      (update ⟨800, 70, 150, 50, 10⟩ (fun _ => 30) true [] 200 16
        ⟨[⟨"a", 100, 20⟩, ⟨"b", 130, 15⟩], ["c"], 0⟩).1.activeDisplayWords
    ∧ ∀ (j k : ℕ)
        (hj : j < (update ⟨800, 70, 150, 50, 10⟩ (fun _ => 30) true [] 200 16
          ⟨[⟨"a", 100, 20⟩, ⟨"b", 130, 15⟩], ["c"], 0⟩).1.activeDisplayWords.length)
        (hk : k < (update ⟨800, 70, 150, 50, 10⟩ (fun _ => 30) true [] 200 16
          ⟨[⟨"a", 100, 20⟩, ⟨"b", 130, 15⟩], ["c"], 0⟩).1.activeDisplayWords.length),
        j < k →
        ((update ⟨800, 70, 150, 50, 10⟩ (fun _ => 30) true [] 200 16
          ⟨[⟨"a", 100, 20⟩, ⟨"b", 130, 15⟩], ["c"], 0⟩).1.activeDisplayWords.get ⟨j, hj⟩).x
          < ((update ⟨800, 70, 150, 50, 10⟩ (fun _ => 30) true [] 200 16
          ⟨[⟨"a", 100, 20⟩, ⟨"b", 130, 15⟩], ["c"], 0⟩).1.activeDisplayWords.get ⟨k, hk⟩).x :=
  active_words_strictly_ordered ⟨800, 70, 150, 50, 10⟩ (fun _ => 30) true [] 200 16
    ⟨[⟨"a", 100, 20⟩, ⟨"b", 130, 15⟩], ["c"], 0⟩
    (by norm_num)
    (by
      intro w hw
      simp only [List.mem_cons, List.not_mem_nil, or_false] at hw
      rcases hw with rfl | rfl <;> norm_num)
    (List.chain'_cons.mpr ⟨by norm_num, List.chain'_singleton _⟩)

/-- With nothing queued and nothing pending, an `update` call only scrolls
and evicts. -/
theorem update_empty_frame (cfg : WDMConfig) (measure : String → ℚ) (now : ℤ)
    (dt : ℚ) (s : WDMState) (hp : s.pendingDisplayWords = []) :
    update cfg measure true [] now dt s
      = ({ s with activeDisplayWords :=
            evictRight cfg.screenWidth (evictLeft (scrollWords cfg.scrollSpeed dt
              s.activeDisplayWords)) },
          none) := by
  have hpull : pullTranscribedTexts s [] = s := by
    unfold pullTranscribedTexts
    simp
  have hrel : releaseWord cfg measure now s = (s, none) := by
    unfold releaseWord
    rw [hp]
  unfold update
  rw [hpull, hrel]
  rfl

/-- One `update` on a single active word: the word scrolls by
`scroll_speed * dt / 1000` and is evicted exactly when its right edge has
crossed zero (its `x` stays at most `screen_width`, so the back eviction
never fires). -/
theorem update_single_word (cfg : WDMConfig) (measure : String → ℚ) (now : ℤ)
    (dt : ℚ) (t : String) (x w : ℚ) (lt : ℤ)
    (hspeed : 0 ≤ cfg.scrollSpeed) (hdt : 0 ≤ dt) (hx : x ≤ cfg.screenWidth) :
    update cfg measure true [] now dt ⟨[⟨t, x, w⟩], [], lt⟩
      = (⟨if x - cfg.scrollSpeed * dt / 1000 + w < 0 then []
          else [⟨t, x - cfg.scrollSpeed * dt / 1000, w⟩], [], lt⟩, none) := by
  rw [update_empty_frame cfg measure now dt _ rfl]
  have hx' : x - cfg.scrollSpeed * dt / 1000 ≤ cfg.screenWidth := by
    have hnn : (0 : ℚ) ≤ cfg.scrollSpeed * dt / 1000 :=
      div_nonneg (mul_nonneg hspeed hdt) (by norm_num)
    linarith
  have hW : ¬ cfg.screenWidth < x - cfg.scrollSpeed * dt / 1000 := not_lt.mpr hx'
  by_cases hc : x - cfg.scrollSpeed * dt / 1000 + w < 0
  · rw [if_pos hc]
    unfold scrollWords evictLeft evictRight
    simp [hc]
  · rw [if_neg hc]
    unfold scrollWords evictLeft evictRight
    simp [hc, hW]

/-- A run of empty frames on an empty display is inert. -/
theorem updateRun_inert (cfg : WDMConfig) (measure : String → ℚ) (lt : ℤ) :
    ∀ frames : List (ℤ × ℚ),
    updateRun cfg measure ⟨[], [], lt⟩ (frames.map (fun f => ([], f.1, f.2)))
      = (⟨[], [], lt⟩, []) := by
  intro frames
  induction frames with
  | nil => rfl
  | cons f fs ih =>
    rw [List.map_cons, updateRun_cons]
    have hu : update cfg measure true [] f.1 f.2 (⟨[], [], lt⟩ : WDMState)
        = (⟨[], [], lt⟩, none) := by
      rw [update_empty_frame cfg measure f.1 f.2 _ rfl]
      rfl
    dsimp only at hu ⊢
    rw [hu, ih]

/-- The single-word eviction law over a whole run of frames. -/
theorem updateRun_single_word (cfg : WDMConfig) (measure : String → ℚ)
    (t : String) (w : ℚ) (lt : ℤ) (hspeed : 0 ≤ cfg.scrollSpeed) :
    ∀ (frames : List (ℤ × ℚ)) (x0 : ℚ),
    (∀ f ∈ frames, 0 ≤ f.2) →
    ¬ (x0 + w < 0) →
    x0 ≤ cfg.screenWidth →
    (updateRun cfg measure ⟨[⟨t, x0, w⟩], [], lt⟩
        (frames.map (fun f => ([], f.1, f.2)))).1
      = ⟨if x0 - cfg.scrollSpeed * (frames.map Prod.snd).sum / 1000 + w < 0 then []
          else [⟨t, x0 - cfg.scrollSpeed * (frames.map Prod.snd).sum / 1000, w⟩],
          [], lt⟩ := by
  intro frames
  induction frames with
  | nil =>
    intro x0 _ hstart _
    have h0 : x0 - cfg.scrollSpeed * (([] : List (ℤ × ℚ)).map Prod.snd).sum / 1000 = x0 := by
      simp
    rw [h0, if_neg hstart]
    rfl
  | cons f fs ih =>
    intro x0 hdts hstart hx0
    have hdt : (0 : ℚ) ≤ f.2 := hdts f (List.mem_cons_self f fs)
    have hnn : (0 : ℚ) ≤ cfg.scrollSpeed * f.2 / 1000 :=
      div_nonneg (mul_nonneg hspeed hdt) (by norm_num)
    have hsum : (0 : ℚ) ≤ (fs.map Prod.snd).sum := by
      apply List.sum_nonneg
      intro q hq
      obtain ⟨g, hg, rfl⟩ := List.mem_map.mp hq
      exact hdts g (List.mem_cons_of_mem f hg)
    have hsumnn : (0 : ℚ) ≤ cfg.scrollSpeed * (fs.map Prod.snd).sum / 1000 :=
      div_nonneg (mul_nonneg hspeed hsum) (by norm_num)
    have harith : x0 - cfg.scrollSpeed * f.2 / 1000
        - cfg.scrollSpeed * (fs.map Prod.snd).sum / 1000
        = x0 - cfg.scrollSpeed * ((f :: fs).map Prod.snd).sum / 1000 := by
      simp only [List.map_cons, List.sum_cons]
      ring
    rw [List.map_cons, updateRun_cons]
    dsimp only
    rw [update_single_word cfg measure f.1 f.2 t x0 w lt hspeed hdt hx0]
    by_cases hc : x0 - cfg.scrollSpeed * f.2 / 1000 + w < 0
    · rw [if_pos hc]
      dsimp only
      have hinert := updateRun_inert cfg measure lt fs
      rw [hinert]
      have hfinal : x0 - cfg.scrollSpeed * ((f :: fs).map Prod.snd).sum / 1000 + w < 0 := by
        rw [← harith]
        linarith
      rw [if_pos hfinal]
    · rw [if_neg hc]
      dsimp only
      rw [ih (x0 - cfg.scrollSpeed * f.2 / 1000)
        (fun g hg => hdts g (List.mem_cons_of_mem f hg)) hc (by linarith), harith]

theorem evictRight_pop (screenWidth : ℚ) (ws : List DisplayWord) (b : DisplayWord)
    (h : screenWidth < b.x) :
    evictRight screenWidth (ws ++ [b]) = evictRight screenWidth ws := by
  unfold evictRight
  rw [List.reverse_append]
  simp [List.dropWhile_cons, h]

theorem evictRight_keep (screenWidth : ℚ) (ws : List DisplayWord) (b : DisplayWord)
    (h : ¬ screenWidth < b.x) :
    evictRight screenWidth (ws ++ [b]) = ws ++ [b] := by
  unfold evictRight
  rw [List.reverse_append]
  simp [List.dropWhile_cons, h]

/-- **C7**: a `DisplayWord` created at `x0` with width `w` and advanced over
any sequence of frames totalling `T` milliseconds at speed `s` is evicted
from the front exactly when `x0 - s·T/1000 + w < 0` (strict: at equality it
is still displayed, and it is never evicted earlier or later — the statement
holds for every run, hence for every prefix); additionally, the back
eviction removes a trailing word exactly when its `x` strictly exceeds the
viewport width. -/
theorem scroll_eviction (cfg : WDMConfig) (measure : String → ℚ) (t : String)
    (x0 w : ℚ) (lt : ℤ) (frames : List (ℤ × ℚ))
    (hspeed : 0 ≤ cfg.scrollSpeed)
    (hdts : ∀ f ∈ frames, 0 ≤ f.2)
    (hstart : ¬ (x0 + w < 0))
    (hx0 : x0 ≤ cfg.screenWidth) :
    (updateRun cfg measure ⟨[⟨t, x0, w⟩], [], lt⟩
        (frames.map (fun f => ([], f.1, f.2)))).1.activeDisplayWords
      = (if x0 - cfg.scrollSpeed * (frames.map Prod.snd).sum / 1000 + w < 0 then []
          else [⟨t, x0 - cfg.scrollSpeed * (frames.map Prod.snd).sum / 1000, w⟩])
    ∧ (∀ (ws : List DisplayWord) (b : DisplayWord), cfg.screenWidth < b.x →
        evictRight cfg.screenWidth (ws ++ [b]) = evictRight cfg.screenWidth ws)
    ∧ (∀ (ws : List DisplayWord) (b : DisplayWord), ¬ cfg.screenWidth < b.x →
        evictRight cfg.screenWidth (ws ++ [b]) = ws ++ [b]) := by
  refine ⟨?_, fun ws b h => evictRight_pop cfg.screenWidth ws b h,
    fun ws b h => evictRight_keep cfg.screenWidth ws b h⟩
  rw [updateRun_single_word cfg measure t w lt hspeed frames x0 hdts hstart hx0]

/-- Witness for C7: at speed 70 px/s, a word at `x0 = 4` of width 5 survives
one 100 ms frame and is evicted after the second. -/
theorem scroll_eviction_witness :
    ((updateRun ⟨800, 70, 150, 50, 10⟩ (fun _ => 30) ⟨[⟨"hi", 4, 5⟩], [], 0⟩
        (([(100, 100), (200, 100)] : List (ℤ × ℚ)).map
          (fun f => ([], f.1, f.2)))).1.activeDisplayWords
      = (if (4 : ℚ) - 70 * (([(100, 100), (200, 100)] : List (ℤ × ℚ)).map Prod.snd).sum / 1000 + 5 < 0
          then []
          else [⟨"hi", 4 - 70 * (([(100, 100), (200, 100)] : List (ℤ × ℚ)).map Prod.snd).sum / 1000, 5⟩]))
    ∧ (∀ (ws : List DisplayWord) (b : DisplayWord), (800 : ℚ) < b.x →
        evictRight 800 (ws ++ [b]) = evictRight 800 ws)
    ∧ (∀ (ws : List DisplayWord) (b : DisplayWord), ¬ (800 : ℚ) < b.x →
        evictRight 800 (ws ++ [b]) = ws ++ [b]) :=
  scroll_eviction ⟨800, 70, 150, 50, 10⟩ (fun _ => 30) "hi" 4 5 0
    [(100, 100), (200, 100)] (by norm_num)
    (by
      intro f hf
      simp only [List.mem_cons, List.not_mem_nil, or_false] at hf
      rcases hf with rfl | rfl <;> norm_num)
    (by norm_num) (by norm_num)

/-- **C8 counterexample**: pause does *not* suppress word releases.  `update`
never consults the pause flag (`main.py` calls it unconditionally and only
`draw` checks `is_transcriber_paused_func`), so with a pending word and the
display interval elapsed, a frame rendered in the paused state still moves
the word from the pending queue into the active display — while the screen
shows only the "Transcription Paused" indicator. -/
theorem paused_release_counterexample :
    (frameStep ⟨800, 70, 150, 50, 10⟩ (fun _ => 30) true true [] 1000 16
        ⟨[], ["hi"], 0⟩).2.2 = DrawOutput.pausedIndicator
    ∧ (frameStep ⟨800, 70, 150, 50, 10⟩ (fun _ => 30) true true [] 1000 16
        ⟨[], ["hi"], 0⟩).2.1 = some "hi"
    ∧ (frameStep ⟨800, 70, 150, 50, 10⟩ (fun _ => 30) true true [] 1000 16
        ⟨[], ["hi"], 0⟩).1.pendingDisplayWords = []
    ∧ (⟨[], ["hi"], 0⟩ : WDMState).pendingDisplayWords ≠ [] :=
  ⟨rfl, rfl, rfl, by decide⟩

/-- **C8 (amended)**: while paused, a frame draws the distinct
"Transcription Paused" indicator instead of the words, and the pause flag
has *no* effect on the word collections: the state (active words, pending
words, release clock) and the released word of a paused frame are identical
to those of an unpaused frame — so pausing by itself neither destroys
active words nor drops pending words, but releases and scrolling continue
invisibly during the pause. -/
theorem paused_frame_amended (cfg : WDMConfig) (measure : String → ℚ)
    (ready : Bool) (incoming : List (List String)) (now : ℤ) (dt : ℚ)
    (s : WDMState) :
    (frameStep cfg measure true ready incoming now dt s).2.2
      = DrawOutput.pausedIndicator
    ∧ (frameStep cfg measure true ready incoming now dt s).1
      = (frameStep cfg measure false ready incoming now dt s).1
    ∧ (frameStep cfg measure true ready incoming now dt s).2.1
      = (frameStep cfg measure false ready incoming now dt s).2.1 :=
  ⟨rfl, rfl, rfl⟩

end WordDisplayManager

namespace AudioHandler

/-!
## AudioDistributor: `AudioHandler.run` (src/audio_handler.py)

Per captured frame, the transcription-side copy is
`amplified_data = (data_for_transcription * self.gain_factor).astype(np.int16)`
followed by `amplified_data.tobytes()`.  The gain factor is a float; for the
configured values (default 1.5) the float64 product `s * gain` is exact, so
we model the gain as a rational `gnum / gden` and the product as the exact
truncation toward zero (`Int.tdiv`).  NumPy's `.astype(np.int16)` on an
out-of-range float does *not* saturate: it truncates toward zero and reduces
the result into 16 bits two's-complement (wraparound), which is what
`wrapInt16` captures.
-/

/-- Reduce an integer into the signed 16-bit range by two's-complement
wraparound — the effect of `.astype(np.int16)`. -/
def wrapInt16 (v : ℤ) : ℤ :=
  (v + 32768) % 65536 - 32768

/-- One sample of `(data_for_transcription * self.gain_factor).astype(np.int16)`:
multiply by the gain `gnum / gden`, truncate toward zero, wrap into int16. -/
def amplifiedSample (gnum gden : ℤ) (s : ℤ) : ℤ :=
  wrapInt16 (Int.tdiv (s * gnum) gden)

/-- The two little-endian bytes of a signed 16-bit value, as produced by
`tobytes()` on an `int16` array element. -/
def int16ToBytes (v : ℤ) : List ℕ :=
  [(v % 65536).toNat % 256, (v % 65536).toNat / 256]

/-- `amplified_data.tobytes()`: the transcription-side byte stream for one
captured frame of samples. -/
def frameTranscriptionBytes (gnum gden : ℤ) (frame : List ℤ) : List ℕ :=
  ((frame.map (amplifiedSample gnum gden)).map int16ToBytes).flatten

/-- Modelled from the claim's wording (not from the code): clip the
gain-scaled value into the signed 16-bit range, saturating at the bounds. -/
def clippedSample (gnum gden : ℤ) (s : ℤ) : ℤ :=
  max (-32768) (min 32767 (Int.tdiv (s * gnum) gden))

theorem wrapInt16_range (v : ℤ) : -32768 ≤ wrapInt16 v ∧ wrapInt16 v ≤ 32767 := by
  unfold wrapInt16
  omega

theorem amplifiedSample_range (gnum gden s : ℤ) :
    -32768 ≤ amplifiedSample gnum gden s ∧ amplifiedSample gnum gden s ≤ 32767 :=
  wrapInt16_range _

/-- Decoding the two serialized bytes of an in-range value recovers it. -/
theorem bytesToInt16_int16ToBytes (v : ℤ) (tail : List ℕ)
    (h1 : -32768 ≤ v) (h2 : v ≤ 32767) :
    Transcriber.bytesToInt16 (int16ToBytes v ++ tail)
      = v :: Transcriber.bytesToInt16 tail := by
  show Transcriber.bytesToInt16
      ((v % 65536).toNat % 256 :: (v % 65536).toNat / 256 :: tail) = _
  rw [Transcriber.bytesToInt16]
  congr 1
  split_ifs with hlt <;> omega

/-- **C5 (amended)**: the transcription-side byte stream carries, for each
captured sample `s`, the value `trunc (s × gain)` reduced into signed 16 bits
by two's-complement *wraparound* — not saturation.  The carried value always
lies in the int16 range, is congruent to the true scaled value mod `2^16`,
and agrees with it (hence with the clipped value) exactly when the true
scaled value is already in range. -/
theorem amplified_transcription_bytes (gnum gden s : ℤ) (frame : List ℤ) :
    Transcriber.bytesToInt16 (frameTranscriptionBytes gnum gden frame)
      = frame.map (amplifiedSample gnum gden)
    ∧ -32768 ≤ amplifiedSample gnum gden s
    ∧ amplifiedSample gnum gden s ≤ 32767
    ∧ (amplifiedSample gnum gden s - Int.tdiv (s * gnum) gden) % 65536 = 0
    ∧ (-32768 ≤ Int.tdiv (s * gnum) gden → Int.tdiv (s * gnum) gden ≤ 32767 →
        amplifiedSample gnum gden s = Int.tdiv (s * gnum) gden) := by
  refine ⟨?_, (amplifiedSample_range _ _ _).1, (amplifiedSample_range _ _ _).2, ?_, ?_⟩
  · induction frame with
    | nil => rfl
    | cons a rest ih =>
      have hstep : frameTranscriptionBytes gnum gden (a :: rest)
          = int16ToBytes (amplifiedSample gnum gden a)
            ++ frameTranscriptionBytes gnum gden rest := by
        rfl
      rw [hstep,
        bytesToInt16_int16ToBytes (amplifiedSample gnum gden a) _
          (amplifiedSample_range _ _ _).1 (amplifiedSample_range _ _ _).2, ih]
      rfl
  · unfold amplifiedSample wrapInt16
    omega
  · intro hlo hhi
    unfold amplifiedSample wrapInt16
    omega

/-- **C5 counterexample**: with the default gain 1.5, the sample 30000 scales
to 45000, which the code wraps to −20536 (bytes `[200, 175]`); saturation
would give 32767.  So gain-scaled values above 32767 do *not* map to the
saturated bound. -/
theorem amplified_sample_not_clipped_counterexample :
    amplifiedSample 3 2 30000 = -20536
    ∧ clippedSample 3 2 30000 = 32767
    ∧ amplifiedSample 3 2 30000 ≠ clippedSample 3 2 30000
    ∧ frameTranscriptionBytes 3 2 [30000] = [200, 175] := by
  refine ⟨by decide, by decide, by decide, ?_⟩
  decide

/-- Witness for C5 (amended) at concrete inputs: the byte stream for the
frame `[30000, 1000]` decodes back to the amplified samples, and the in-range
sample 1000 is carried faithfully as 1500. -/
theorem amplified_transcription_bytes_witness :
    Transcriber.bytesToInt16 (frameTranscriptionBytes 3 2 [30000, 1000])
      = [30000, 1000].map (amplifiedSample 3 2)
    ∧ amplifiedSample 3 2 1000 = Int.tdiv (1000 * 3) 2 :=
  ⟨(amplified_transcription_bytes 3 2 1000 [30000, 1000]).1,
    (amplified_transcription_bytes 3 2 1000 [30000, 1000]).2.2.2.2
      (by decide) (by decide)⟩

end AudioHandler

namespace Transcriber

/-- Witness for C1 at concrete parameters. -/
theorem assembler_window_overlap_witness :
    (2 : ℕ) < 4 ∧
    (List.Chain' (OverlapRel 4 2) (assemblerRun 4 2 [0, 1, 2, 3, 4] [[[5, 6, 7]], [[8]]]).1
      ∧ (∀ w ∈ (assemblerRun 4 2 [0, 1, 2, 3, 4] [[[5, 6, 7]], [[8]]]).1, w.length = 4)
      ∧ (∀ b : List ℕ, 4 ≤ b.length →
          ((cutWindow 4 2 b).2).take 2 = ((cutWindow 4 2 b).1).drop (4 - 2))) :=
  ⟨by norm_num, assembler_window_overlap 4 2 (by norm_num) [0, 1, 2, 3, 4] [[[5, 6, 7]], [[8]]]⟩

end Transcriber
